import Mathlib

/-!
# Verification of the gurren SSH tunnel manager

A shallow embedding of the core of the `gurren` repository
(`internal/tunnel/manager.go`, `internal/tunnel/tunnel.go`,
`internal/daemon/{protocol,handlers,client}.go`) together with proofs of the
behavioural properties stated in the repository's specification.

Modelling conventions:

* Go string values are Lean `String`s; `strings.Contains` / `strings.Cut`
  are translated character-by-character (`containsL`, `cutAt`).
* The `Manager`'s mutex serialises all mutations, so a run of the system is
  modelled as a sequence of atomic critical sections (`Ev`, `step`): each
  event is one mutex-protected block of the Go source.  Goroutines spawned
  by `Start` (the forwarder, the 100 ms readiness check) and by `Stop` (the
  200 ms ephemeral-removal task) become pending tasks recorded in the
  manager state; their later execution is an event of its own, so every
  interleaving of the Go scheduler is covered by some event sequence.
* `context.CancelFunc` presence is the Boolean `cancel` field; calling the
  function is recorded in the ghost field `cancelFired`.
* Go map semantics are given by an association list with unique keys
  (`lookupT`/`updateT`/`removeT`/`insertT`).
* Pointer identity of `*ManagedTunnel` (the forwarder goroutine and the
  readiness check capture the pointer, not the name) is modelled by a
  per-object generation number `gen`, assigned at creation.
-/

namespace Gurren

/-- Tunnel state, from `internal/tunnel/state.go`: `State` with constants
`StateDisconnected`, `StateConnecting`, `StateConnected`, `StateError`. -/
inductive State where
  | disconnected
  | connecting
  | connected
  | error
deriving DecidableEq, Repr

/-- `State.String` from `internal/tunnel/state.go` (the underlying string). -/
def State.str : State → String
  | .disconnected => "disconnected"
  | .connecting => "connecting"
  | .connected => "connected"
  | .error => "error"

/-- `State.IsActive` from `internal/tunnel/state.go`:
`s == StateConnecting || s == StateConnected`. -/
def State.IsActive (s : State) : Bool :=
  s = State.connecting || s = State.connected

/-- Result of the context-aware forwarder `Start(ctx, t, authMethods)`
(`internal/tunnel/tunnel.go`): it returns the sentinel `ErrTunnelClosed`
after context cancellation, or some other error.  A `nil` result is
represented by `Option.none` at use sites. -/
inductive FwdErr where
  | closed
  | fail (msg : String)
deriving DecidableEq, Repr

/-- `StatusChange` from `internal/tunnel/manager.go`. -/
structure StatusChange where
  Name : String
  Status : State
  Error : String
deriving DecidableEq, Repr

/-- `ManagedTunnel` from `internal/tunnel/manager.go`.  `cancel : Bool`
models presence of the `context.CancelFunc`; `cancelFired` is a ghost flag
recording that the stored cancel function has been invoked; `gen` models
the identity of the heap object (see module comment).  `Config` and
`startedAt` are omitted: no claim mentions them. -/
structure ManagedTunnel where
  Status : State
  Error : String
  Ephemeral : Bool
  cancel : Bool
  cancelFired : Bool
  gen : Nat
deriving DecidableEq, Repr

/-- The manager's tunnel set (`map[string]*ManagedTunnel`) as an
association list, plus the sets of spawned-but-not-yet-run tasks:
`pendingFwds` - forwarder goroutines spawned by `Start` (name, gen of the
captured object); `pendingPromos` - the 100 ms readiness checks of `Start`;
`pendingRemovals` - the 200 ms ephemeral-removal tasks spawned by `Stop`. -/
structure Manager where
  tunnels : List (String × ManagedTunnel)
  nextGen : Nat
  pendingFwds : List (String × Nat)
  pendingPromos : List (String × Nat)
  pendingRemovals : List String
deriving DecidableEq, Repr

/-- Go map read `m.tunnels[name]`. -/
def lookupT : List (String × ManagedTunnel) → String → Option ManagedTunnel
  | [], _ => none
  | (k, v) :: t, n => if k = n then some v else lookupT t n

/-- Go map write to an existing key (mutating the entry in place). -/
def updateT : List (String × ManagedTunnel) → String → ManagedTunnel →
    List (String × ManagedTunnel)
  | [], _, _ => []
  | (k, v) :: t, n, mt => if k = n then (k, mt) :: t else (k, v) :: updateT t n mt

/-- Go `delete(m.tunnels, name)`. -/
def removeT : List (String × ManagedTunnel) → String → List (String × ManagedTunnel)
  | [], _ => []
  | (k, v) :: t, n => if k = n then t else (k, v) :: removeT t n

/-- Go map write `m.tunnels[name] = mt` (insert or replace). -/
def insertT (l : List (String × ManagedTunnel)) (n : String) (mt : ManagedTunnel) :
    List (String × ManagedTunnel) :=
  (n, mt) :: removeT l n

/-- `hasPrefixL s pat` iff `pat` is a prefix of `s` (Go `strings.HasPrefix`). -/
def hasPrefixL : List Char → List Char → Bool
  | _, [] => true
  | [], _ :: _ => false
  | a :: s, b :: p => a = b && hasPrefixL s p

/-- `containsL pat s` iff `pat` occurs as a contiguous substring of `s`. -/
def containsL (pat : List Char) : List Char → Bool
  | [] => hasPrefixL [] pat
  | a :: s => hasPrefixL (a :: s) pat || containsL pat s

/-- Go `strings.Contains(s, pat)`. -/
def strContains (s pat : String) : Bool :=
  containsL pat.data s.data

/-- Go `%q` for the names appearing in manager error messages (escaping of
quote and backslash characters inside `name` is elided; no claim involves
such a name). -/
def goQuote (s : String) : String :=
  "\"" ++ s ++ "\""

/-- `fmt.Errorf("tunnel %q not found", name)` (manager.go). -/
def notFoundMsg (name : String) : String :=
  "tunnel " ++ goQuote name ++ " not found"

/-- `fmt.Errorf("tunnel %q is already %s", name, mt.Status)` (manager.go). -/
def alreadyMsg (name : String) (st : State) : String :=
  "tunnel " ++ goQuote name ++ " is already " ++ st.str

/-- `fmt.Errorf("tunnel %q is not running", name)` (manager.go). -/
def notRunningMsg (name : String) : String :=
  "tunnel " ++ goQuote name ++ " is not running"

/-- Result of the mutex-guarded prefix of `Manager.Start`
(manager.go lines 76-104): new manager, the `connecting` notification (fired
after unlock), and the returned `error` (its message, or `none` for `nil`). -/
structure StartResult where
  mgr : Manager
  emit : Option StatusChange
  err : Option String
deriving DecidableEq, Repr

/-- Result of `Manager.Stop` (manager.go lines 158-192). -/
structure StopResult where
  mgr : Manager
  err : Option String
deriving DecidableEq, Repr

/-- The mutex-guarded prefix of `Manager.Start` (manager.go lines 76-104):
guard on existence and activity, set `connecting`, install a fresh cancel
handle, then (after unlock) notify `connecting`.  The forwarder goroutine
spawned at line 107 and the 100 ms readiness check at lines 137-151 run
later; they are recorded as pending tasks keyed by the captured object's
identity `mt.gen`. -/
def Manager.Start (m : Manager) (name : String) : StartResult :=
  match lookupT m.tunnels name with
  | none => ⟨m, none, some (notFoundMsg name)⟩
  | some mt =>
    if mt.Status.IsActive then
      ⟨m, none, some (alreadyMsg name mt.Status)⟩
    else
      let mt' : ManagedTunnel :=
        { mt with Status := .connecting, Error := "", cancel := true, cancelFired := false }
      ⟨{ m with
          tunnels := updateT m.tunnels name mt',
          pendingFwds := (name, mt.gen) :: m.pendingFwds,
          pendingPromos := (name, mt.gen) :: m.pendingPromos },
        some ⟨name, .connecting, ""⟩, none⟩

/-- The terminal state computed by the forwarder goroutine of `Manager.Start`
(manager.go lines 118-124): `error` with the cause when
`err != nil && err != ErrTunnelClosed`, else `disconnected`. -/
def termState : Option FwdErr → State × String
  | some (.fail msg) => (State.error, msg)
  | _ => (State.disconnected, "")

/-- The forwarder goroutine's post-return critical section
(manager.go lines 117-133): set the terminal state on the captured object,
clear the cancel handle, then fire the callback with the new status.  The
captured `*ManagedTunnel` is the map entry for `name` exactly when that
entry's `gen` equals `g`; otherwise the object has been detached from the
map and the mutation is invisible, but the callback still fires. -/
def Manager.fwdReturn (m : Manager) (name : String) (g : Nat) (e : Option FwdErr) :
    Manager × StatusChange :=
  let st := (termState e).1
  let er := (termState e).2
  let tns :=
    match lookupT m.tunnels name with
    | some mt =>
      if mt.gen = g then
        updateT m.tunnels name { mt with Status := st, Error := er, cancel := false }
      else m.tunnels
    | none => m.tunnels
  ({ m with tunnels := tns, pendingFwds := m.pendingFwds.erase (name, g) },
    ⟨name, st, er⟩)

/-- The readiness check of `Manager.Start` after the 100 ms wait
(manager.go lines 139-151): if the captured object is still `connecting`,
promote it to `connected` and notify.  As in `fwdReturn`, the captured
pointer is the map entry for `name` iff the generations agree. -/
def Manager.promote (m : Manager) (name : String) (g : Nat) :
    Manager × Option StatusChange :=
  let m0 := { m with pendingPromos := m.pendingPromos.erase (name, g) }
  match lookupT m.tunnels name with
  | some mt =>
    if mt.gen = g then
      if mt.Status = State.connecting then
        ({ m0 with tunnels := updateT m.tunnels name { mt with Status := .connected } },
          some ⟨name, .connected, ""⟩)
      else (m0, none)
    else (m0, none)
  | none => (m0, none)

/-- `if mt.cancel != nil { mt.cancel() }` (manager.go): invoking the
stored cancel handle, recorded in the ghost flag `cancelFired`. -/
def fireCancel (v : ManagedTunnel) : ManagedTunnel :=
  if v.cancel then { v with cancelFired := true } else v

/-- `Manager.Stop` (manager.go lines 158-192): guard on existence and
activity, invoke the cancel handle if present, and, for an ephemeral
tunnel, spawn the delayed removal task (lines 178-188). -/
def Manager.Stop (m : Manager) (name : String) : StopResult :=
  match lookupT m.tunnels name with
  | none => ⟨m, some (notFoundMsg name)⟩
  | some mt =>
    if !mt.Status.IsActive then
      ⟨m, some (notRunningMsg name)⟩
    else
      ⟨{ m with
          tunnels := updateT m.tunnels name (fireCancel mt),
          pendingRemovals :=
            if mt.Ephemeral then name :: m.pendingRemovals else m.pendingRemovals },
        none⟩

/-- The delayed ephemeral-removal task spawned by `Manager.Stop`
(manager.go lines 179-187): after the 200 ms grace window, delete the
tunnel iff it is still present and not active. -/
def Manager.removeEphemeral (m : Manager) (name : String) : Manager :=
  let tns :=
    match lookupT m.tunnels name with
    | some mt => if mt.Status.IsActive then m.tunnels else removeT m.tunnels name
    | none => m.tunnels
  { m with tunnels := tns, pendingRemovals := m.pendingRemovals.erase name }

/-- `Manager.StopAll` (manager.go lines 227-236): invoke every present
cancel handle. -/
def Manager.StopAll (m : Manager) : Manager :=
  { m with tunnels := m.tunnels.map fun p => (p.1, fireCancel p.2) }

/-- `Manager.Register` (manager.go lines 253-279) with the randomly
generated name supplied as a parameter: if the name is still taken after
the retries, fail; otherwise insert a fresh ephemeral tunnel in state
`disconnected`. -/
def Manager.Register (m : Manager) (name : String) : Manager × Option String :=
  match lookupT m.tunnels name with
  | some _ => (m, some "failed to generate unique name")
  | none =>
    ({ m with
        tunnels := (name,
          ⟨.disconnected, "", true, false, false, m.nextGen⟩) :: m.tunnels,
        nextGen := m.nextGen + 1 },
      none)

/-- `Manager.Unregister` (manager.go lines 283-302). -/
def Manager.Unregister (m : Manager) (name : String) : Manager × Option String :=
  match lookupT m.tunnels name with
  | none => (m, some (notFoundMsg name))
  | some mt =>
    if !mt.Ephemeral then (m, some ("tunnel " ++ goQuote name ++ " is not ephemeral"))
    else if mt.Status.IsActive then
      (m, some ("tunnel " ++ goQuote name ++ " is still active"))
    else ({ m with tunnels := removeT m.tunnels name }, none)

/-- `Manager.Status` (manager.go lines 195-205). -/
def Manager.Status (m : Manager) (name : String) : State × String :=
  match lookupT m.tunnels name with
  | none => (State.disconnected, "tunnel not found")
  | some mt => (mt.Status, mt.Error)

/-- One atomic critical section of the running system.  Parameters of an
event carry the scheduler's and the network's nondeterminism: which pending
task runs, and with which forwarder result. -/
inductive Ev where
  | start (name : String)
  | fwdReturn (name : String) (g : Nat) (e : Option FwdErr)
  | promote (name : String) (g : Nat)
  | stop (name : String)
  | stopAll
  | register (name : String)
  | unregister (name : String)
  | ephemRemoval (name : String)
deriving DecidableEq, Repr

/-- The transition function: run one event, returning the new manager and
the status change delivered to the `onChange` callback (if any).  Task
events (`fwdReturn`, `promote`, `ephemRemoval`) are no-ops unless the
corresponding task is actually pending. -/
def step (m : Manager) : Ev → Manager × Option StatusChange
  | .start n =>
    let r := m.Start n
    (r.mgr, r.emit)
  | .fwdReturn n g e =>
    if (n, g) ∈ m.pendingFwds then
      ((m.fwdReturn n g e).1, some (m.fwdReturn n g e).2)
    else (m, none)
  | .promote n g =>
    if (n, g) ∈ m.pendingPromos then m.promote n g else (m, none)
  | .stop n => ((m.Stop n).mgr, none)
  | .stopAll => (m.StopAll, none)
  | .register n => ((m.Register n).1, none)
  | .unregister n => ((m.Unregister n).1, none)
  | .ephemRemoval n =>
    if n ∈ m.pendingRemovals then (m.removeEphemeral n, none) else (m, none)

/-- Run a sequence of events, collecting the emitted status changes. -/
def run (m : Manager) : List Ev → Manager × List StatusChange
  | [] => (m, [])
  | ev :: evs =>
    ((run (step m ev).1 evs).1,
      ((step m ev).2).toList ++ (run (step m ev).1 evs).2)

/-- `NewManager` (manager.go lines 40-55): every configured tunnel starts
`disconnected` with no cancel handle; later duplicate names overwrite
earlier ones, as for the Go map.  Generation numbers are assigned by
position. -/
def initAcc : List (String × ManagedTunnel) → Nat → List String →
    List (String × ManagedTunnel)
  | acc, _, [] => acc
  | acc, g, n :: ns => initAcc (insertT acc n ⟨.disconnected, "", false, false, false, g⟩) (g + 1) ns

/-- The manager produced by `NewManager` for a configuration whose tunnels
carry the given names. -/
def initManager (names : List String) : Manager :=
  ⟨initAcc [] 0 names, names.length, [], [], []⟩

/-- The statuses carried by the changes of a trace that concern `name`. -/
def obsOf (tr : List StatusChange) (name : String) : List State :=
  (tr.filter fun c => c.Name = name).map fun c => c.Status

/-- The last status observed for `name` in a trace. -/
def lastObs (tr : List StatusChange) (name : String) : Option State :=
  (obsOf tr name).getLast?

/-- The statuses observed for tunnel `name` by the `onChange` subscriber
over a run. -/
def observed (m : Manager) (evs : List Ev) (name : String) : List State :=
  obsOf (run m evs).2 name

/-- Go `strings.Cut(s, "@")` for the one-character separator: split at the
first occurrence of `c`, or `none` when `c` does not occur. -/
def cutAt (c : Char) : List Char → Option (List Char × List Char)
  | [] => none
  | a :: s =>
    if a = c then some ([], s)
    else
      match cutAt c s with
      | some (pre, post) => some (a :: pre, post)
      | none => none

/-- `parseHost` from `internal/daemon/handlers.go` (lines 413-431): extract
an optional `user@` prefix at the first `@`, then append the default port
`:22` when the remainder has no `:`.  Returns `(addr, user)`. -/
def parseHost (host : String) : String × String :=
  match cutAt '@' host.data with
  | some (u, a) =>
    (if containsL [':'] a then String.mk a else String.mk (a ++ ":22".data),
      String.mk u)
  | none =>
    (if containsL [':'] host.data then host else String.mk (host.data ++ ":22".data),
      "")

/-- Modelled from the spec: the canonicalization `join(u, h, p)` producing
the `[user@]host[:port]` form, which the repository never defines as code
(section 8 of the spec uses it only as the inverse of `parseHost`). -/
def joinHost (u h p : String) : String :=
  (if u = "" then "" else u ++ "@") ++ h ++ ":" ++ p

/-- Error codes from `internal/daemon/protocol.go`. -/
def ErrCodeInternal : Int := -32603

/-- `ErrCodeInvalidParams` from `internal/daemon/protocol.go`. -/
def ErrCodeInvalidParams : Int := -32602

/-- `ErrCodeTunnelNotFound` from `internal/daemon/protocol.go`. -/
def ErrCodeTunnelNotFound : Int := 1001

/-- `ErrCodeTunnelActive` from `internal/daemon/protocol.go`. -/
def ErrCodeTunnelActive : Int := 1002

/-- `ErrCodeTunnelInactive` from `internal/daemon/protocol.go`. -/
def ErrCodeTunnelInactive : Int := 1003

/-- A daemon `Response` as far as the verified handlers are concerned:
either a result payload or an `{code, message}` error. -/
inductive RpcReply where
  | okStatus (name : String) (status : State) (err : String)
  | okUnit
  | rpcError (code : Int) (msg : String)
deriving DecidableEq, Repr

/-- The error mapping applied by `handleTunnelStart` to a `Manager.Start`
failure (handlers.go lines 293-298): messages containing `"already"` become
`ErrCodeTunnelActive`, all others `ErrCodeInternal`. -/
def startErrReply (msg : String) : RpcReply :=
  if strContains msg "already" then .rpcError ErrCodeTunnelActive msg
  else .rpcError ErrCodeInternal msg

/-- `handleTunnelStop` (handlers.go lines 309-330), for a request with the
given decoded `name`: reject an empty name, call `Manager.Stop`, and map
its error by substring: `"not found"` to 1001, `"not running"` to 1003,
anything else to the internal code. -/
def handleTunnelStop (m : Manager) (name : String) : Manager × RpcReply :=
  if name = "" then (m, .rpcError ErrCodeInvalidParams "name is required")
  else
    let r := m.Stop name
    match r.err with
    | some msg =>
      (r.mgr,
        if strContains msg "not found" then .rpcError ErrCodeTunnelNotFound msg
        else if strContains msg "not running" then .rpcError ErrCodeTunnelInactive msg
        else .rpcError ErrCodeInternal msg)
    | none => (r.mgr, .okUnit)

/-- `handleTunnelStatus` (handlers.go lines 333-353): reject an empty name,
then report non-existence with code 1001 exactly when the error string
returned by `Manager.Status` is the literal `"tunnel not found"`. -/
def handleTunnelStatus (m : Manager) (name : String) : RpcReply :=
  if name = "" then .rpcError ErrCodeInvalidParams "name is required"
  else
    let (st, er) := m.Status name
    if er = "tunnel not found" then .rpcError ErrCodeTunnelNotFound er
    else .okStatus name st er

/-- A decoded JSON message as routed by the client read loop
(`internal/daemon/client.go`): only the `id` and `method` fields matter
for classification; a missing field decodes to the empty string. -/
structure RawMsg where
  id : String
  method : String
deriving DecidableEq, Repr

/-- Capacity of the client notification queue:
`make(chan Notification, 100)` in `Connect` (client.go). -/
def notifCap : Nat := 100

/-- The client-side demultiplexer state: ids with a registered reply slot
(`c.responses`), responses already handed to their slot, and the bounded
notification queue. -/
structure ClientState where
  responses : List String
  delivered : List (String × RawMsg)
  notifications : List RawMsg
deriving DecidableEq, Repr

/-- One iteration of `Client.readLoop` (client.go lines 145-181) on a
decoded message: a non-empty `id` marks a response, delivered to the slot
registered under that id (which is then removed) and dropped when no slot
is registered; otherwise a non-empty `method` marks a notification,
enqueued if the queue is below capacity and dropped otherwise; anything
else is dropped. -/
def readLoopStep (c : ClientState) (msg : RawMsg) : ClientState :=
  if msg.id ≠ "" then
    if msg.id ∈ c.responses then
      { c with
          responses := c.responses.erase msg.id,
          delivered := c.delivered ++ [(msg.id, msg)] }
    else c
  else if msg.method ≠ "" then
    if c.notifications.length < notifCap then
      { c with notifications := c.notifications ++ [msg] }
    else c
  else c

/-! ## Substring lemmas for the error-message routing -/

theorem hasPrefixL_append {s pat : List Char} (m : List Char)
    (h : hasPrefixL s pat = true) : hasPrefixL (s ++ m) pat = true := by
  induction pat generalizing s with
  | nil => simp [hasPrefixL]
  | cons b p ih =>
    cases s with
    | nil => simp [hasPrefixL] at h
    | cons a s' =>
      simp only [hasPrefixL, Bool.and_eq_true, decide_eq_true_eq] at h ⊢
      exact ⟨h.1, ih h.2⟩

theorem containsL_of_hasPrefixL {s pat : List Char} (h : hasPrefixL s pat = true) :
    containsL pat s = true := by
  cases s with
  | nil => simpa [containsL] using h
  | cons a s' => simp [containsL, h]

theorem containsL_cons {pat s : List Char} (a : Char)
    (h : containsL pat s = true) : containsL pat (a :: s) = true := by
  simp [containsL, h]

theorem containsL_append_left {pat m₁ : List Char} (m₂ : List Char)
    (h : containsL pat m₁ = true) : containsL pat (m₁ ++ m₂) = true := by
  induction m₁ with
  | nil =>
    simp only [containsL] at h
    exact containsL_of_hasPrefixL (hasPrefixL_append m₂ h)
  | cons a s ih =>
    simp only [containsL, Bool.or_eq_true] at h
    rcases h with h | h
    · exact containsL_of_hasPrefixL (by simpa using hasPrefixL_append m₂ h)
    · exact containsL_cons a (ih h)

theorem containsL_append_right {pat m₂ : List Char} (m₁ : List Char)
    (h : containsL pat m₂ = true) : containsL pat (m₁ ++ m₂) = true := by
  induction m₁ with
  | nil => simpa using h
  | cons a s ih => exact containsL_cons a ih

theorem hasPrefixL_sandwich {pat m₁ m₂ : List Char} {c : Char} (hc : ¬ c ∈ pat)
    (h : hasPrefixL (m₁ ++ c :: m₂) pat = true) : hasPrefixL m₁ pat = true := by
  induction pat generalizing m₁ with
  | nil => simp [hasPrefixL]
  | cons b p ih =>
    cases m₁ with
    | nil =>
      simp only [List.nil_append, hasPrefixL, Bool.and_eq_true, decide_eq_true_eq] at h
      exact absurd (h.1 ▸ List.mem_cons_self b p) hc
    | cons a s =>
      simp only [List.cons_append, hasPrefixL, Bool.and_eq_true, decide_eq_true_eq] at h ⊢
      exact ⟨h.1, ih (fun hm => hc (List.mem_cons_of_mem b hm)) h.2⟩

theorem containsL_sandwich {pat m₁ m₂ : List Char} {c : Char} (hc : ¬ c ∈ pat)
    (h : containsL pat (m₁ ++ c :: m₂) = true) :
    containsL pat m₁ = true ∨ containsL pat m₂ = true := by
  induction m₁ with
  | nil =>
    simp only [List.nil_append, containsL, Bool.or_eq_true] at h
    rcases h with h | h
    · cases pat with
      | nil => exact Or.inl rfl
      | cons b p =>
        simp only [hasPrefixL, Bool.and_eq_true, decide_eq_true_eq] at h
        exact absurd (h.1 ▸ List.mem_cons_self b p) hc
    · exact Or.inr h
  | cons a s ih =>
    simp only [List.cons_append, containsL, Bool.or_eq_true] at h
    rcases h with h | h
    · have : hasPrefixL (a :: s) pat = true :=
        hasPrefixL_sandwich hc (by simpa using h)
      exact Or.inl (containsL_of_hasPrefixL this)
    · rcases ih h with h' | h'
      · exact Or.inl (containsL_cons a h')
      · exact Or.inr h'

/-- Every `Manager.Start` not-found message contains `"not found"`. -/
theorem notFoundMsg_contains (name : String) :
    strContains (notFoundMsg name) "not found" = true := by
  show containsL "not found".data (("tunnel " ++ goQuote name) ++ " not found").data = true
  rw [String.data_append]
  exact containsL_append_right _ (by decide)

/-- Every `Manager.Start` already-active message contains `"already"`. -/
theorem alreadyMsg_contains (name : String) (st : State) :
    strContains (alreadyMsg name st) "already" = true := by
  show containsL "already".data
    ((("tunnel " ++ goQuote name) ++ " is already ") ++ st.str).data = true
  rw [String.data_append, String.data_append]
  rw [List.append_assoc]
  exact containsL_append_right _ (containsL_append_left _ (by decide))

/-- The not-running message of `Manager.Stop`, decomposed around the two
quote characters produced by `%q`. -/
theorem notRunningMsg_data (name : String) :
    (notRunningMsg name).data =
      "tunnel ".data ++ '"' :: (name.data ++ '"' :: " is not running".data) := by
  show (("tunnel " ++ (("\"" ++ name) ++ "\"")) ++ " is not running").data = _
  rw [String.data_append, String.data_append, String.data_append, String.data_append]
  simp [List.append_assoc]

/-- The not-running message contains `"not found"` only when the tunnel
name itself does. -/
theorem notRunningMsg_not_contains {name : String}
    (h : strContains name "not found" = false) :
    strContains (notRunningMsg name) "not found" = false := by
  by_contra hne
  have hct : containsL "not found".data (notRunningMsg name).data = true := by
    revert hne
    unfold strContains
    cases containsL "not found".data (notRunningMsg name).data <;> simp
  rw [notRunningMsg_data] at hct
  have hq : ¬ '"' ∈ "not found".data := by decide
  rcases containsL_sandwich hq hct with h1 | h1
  · revert h1
    decide
  · rcases containsL_sandwich hq h1 with h2 | h2
    · exact absurd h2 (by simp [strContains] at h; simp [h])
    · revert h2
      decide

/-- The not-running message contains `"not running"`. -/
theorem notRunningMsg_contains (name : String) :
    strContains (notRunningMsg name) "not running" = true := by
  show containsL "not running".data
    (("tunnel " ++ goQuote name) ++ " is not running").data = true
  rw [String.data_append]
  exact containsL_append_right _ (by decide)

/-! ## Association-list lemmas (Go map semantics) -/

theorem lookupT_updateT_self {l : List (String × ManagedTunnel)} {n : String}
    {mt₀ : ManagedTunnel} (mt : ManagedTunnel) (h : lookupT l n = some mt₀) :
    lookupT (updateT l n mt) n = some mt := by
  induction l with
  | nil => simp [lookupT] at h
  | cons p t ih =>
    obtain ⟨k, v⟩ := p
    by_cases hk : k = n
    · subst hk
      simp [lookupT, updateT]
    · simp only [lookupT, updateT, if_neg hk] at h ⊢
      exact ih h

theorem lookupT_updateT_ne {l : List (String × ManagedTunnel)} {n n' : String}
    (mt : ManagedTunnel) (h : n' ≠ n) :
    lookupT (updateT l n mt) n' = lookupT l n' := by
  induction l with
  | nil => simp [updateT]
  | cons p t ih =>
    obtain ⟨k, v⟩ := p
    by_cases hk : k = n
    · subst hk
      simp [lookupT, updateT, if_neg (fun hh : k = n' => h (hh ▸ rfl)), h.symm]
    · by_cases hk' : k = n'
      · subst hk'
        simp [lookupT, updateT, hk]
      · simp [lookupT, updateT, hk, hk', ih]

theorem lookupT_removeT_ne {l : List (String × ManagedTunnel)} {n n' : String}
    (h : n' ≠ n) : lookupT (removeT l n) n' = lookupT l n' := by
  induction l with
  | nil => simp [removeT]
  | cons p t ih =>
    obtain ⟨k, v⟩ := p
    by_cases hk : k = n
    · subst hk
      simp [lookupT, removeT, if_neg (fun hh : k = n' => h (hh ▸ rfl))]
    · by_cases hk' : k = n'
      · subst hk'
        simp [lookupT, removeT, hk]
      · simp [lookupT, removeT, hk, hk', ih]

theorem lookupT_removeT_self {l : List (String × ManagedTunnel)} {n : String}
    (hnd : (l.map Prod.fst).Nodup) : lookupT (removeT l n) n = none := by
  induction l with
  | nil => simp [removeT, lookupT]
  | cons p t ih =>
    obtain ⟨k, v⟩ := p
    simp only [List.map_cons, List.nodup_cons] at hnd
    by_cases hk : k = n
    · subst hk
      simp only [removeT, if_pos rfl]
      clear ih
      induction t with
      | nil => simp [lookupT]
      | cons q t' ih' =>
        obtain ⟨k', v'⟩ := q
        simp only [List.map_cons, List.mem_cons, List.nodup_cons] at hnd
        have hk' : k' ≠ k := fun hh => hnd.1 (Or.inl hh.symm)
        simp only [lookupT, if_neg (fun hh : k' = k => hk' hh)]
        exact ih' ⟨fun hm => hnd.1 (Or.inr hm), hnd.2.2⟩
    · simp only [removeT, if_neg hk, lookupT, if_neg hk]
      exact ih hnd.2

theorem mem_removeT {l : List (String × ManagedTunnel)} {n : String}
    {p : String × ManagedTunnel} (h : p ∈ removeT l n) : p ∈ l := by
  induction l with
  | nil => simp [removeT] at h
  | cons q t ih =>
    obtain ⟨k, v⟩ := q
    by_cases hk : k = n
    · subst hk
      simp only [removeT, if_pos rfl] at h
      exact List.mem_cons_of_mem _ h
    · simp only [removeT, if_neg hk, List.mem_cons] at h
      rcases h with h | h
      · exact h ▸ List.mem_cons_self _ _
      · exact List.mem_cons_of_mem _ (ih h)

theorem mem_updateT {l : List (String × ManagedTunnel)} {n : String}
    {mt : ManagedTunnel} {p : String × ManagedTunnel} (h : p ∈ updateT l n mt) :
    p ∈ l ∨ p = (n, mt) ∨ ∃ v, (n, v) ∈ l ∧ p = (n, mt) := by
  induction l with
  | nil => simp [updateT] at h
  | cons q t ih =>
    obtain ⟨k, v⟩ := q
    by_cases hk : k = n
    · subst hk
      simp only [updateT, eq_self_iff_true, if_true, List.mem_cons] at h
      rcases h with h | h
      · exact Or.inr (Or.inl h)
      · exact Or.inl (List.mem_cons_of_mem _ h)
    · simp only [updateT, if_neg hk, List.mem_cons] at h
      rcases h with h | h
      · exact Or.inl (h ▸ List.mem_cons_self _ _)
      · rcases ih h with h' | h' | h'
        · exact Or.inl (List.mem_cons_of_mem _ h')
        · exact Or.inr (Or.inl h')
        · obtain ⟨w, hw, hp⟩ := h'
          exact Or.inr (Or.inr ⟨w, List.mem_cons_of_mem _ hw, hp⟩)

/-! ## Host parsing -/

theorem cutAt_of_not_mem {c : Char} {s : List Char} (h : ¬ c ∈ s) :
    cutAt c s = none := by
  induction s with
  | nil => rfl
  | cons a t ih =>
    have ha : ¬ a = c := fun hh => h (hh ▸ List.mem_cons_self a t)
    simp only [cutAt, if_neg ha, ih (fun hm => h (List.mem_cons_of_mem a hm))]

theorem cutAt_append {c : Char} {u : List Char} (a : List Char) (h : ¬ c ∈ u) :
    cutAt c (u ++ c :: a) = some (u, a) := by
  induction u with
  | nil => simp [cutAt]
  | cons x u' ih =>
    have hx : ¬ x = c := fun hh => h (hh ▸ List.mem_cons_self x u')
    have ih' := ih (fun hm => h (List.mem_cons_of_mem x hm))
    show cutAt c (x :: (u' ++ c :: a)) = some (x :: u', a)
    simp only [cutAt, if_neg hx]
    rw [ih']

/-- `parseHost` on a string with a (first) `@`: the prefix becomes the
user, and `:22` is appended iff the remainder has no `:`. -/
theorem parseHost_at (u a : String) (hu : ¬ '@' ∈ u.data) :
    parseHost (u ++ "@" ++ a) =
      ((if strContains a ":" then a else a ++ ":22"), u) := by
  unfold parseHost
  have hd : (u ++ "@" ++ a).data = u.data ++ '@' :: a.data := by
    show ((u ++ "@") ++ a).data = _
    rw [String.data_append, String.data_append]
    simp
  rw [hd, cutAt_append _ hu]
  rfl

/-- `parseHost` on a string without `@`: the user is empty, and `:22` is
appended iff the string has no `:`. -/
theorem parseHost_noAt (s : String) (hs : ¬ '@' ∈ s.data) :
    parseHost s = ((if strContains s ":" then s else s ++ ":22"), "") := by
  unfold parseHost
  rw [cutAt_of_not_mem hs]
  rfl

/-- C7: `parseHost` splits on the first `@` (the prefix, possibly empty,
becomes the user; with no `@` the user is empty) and appends `:22` to the
remainder exactly when the remainder contains no `:`; in particular
`parseHost "root@10.0.0.1:2222" = ("10.0.0.1:2222", "root")` and
`parseHost "example.com" = ("example.com:22", "")`. -/
theorem C7_parseHost_spec :
    (∀ u a : String, ¬ '@' ∈ u.data →
      parseHost (u ++ "@" ++ a) =
        ((if strContains a ":" then a else a ++ ":22"), u)) ∧
    (∀ s : String, ¬ '@' ∈ s.data →
      parseHost s = ((if strContains s ":" then s else s ++ ":22"), "")) ∧
    parseHost "root@10.0.0.1:2222" = ("10.0.0.1:2222", "root") ∧
    parseHost "example.com" = ("example.com:22", "") :=
  ⟨parseHost_at, parseHost_noAt, by decide, by decide⟩

/-- Witness for C7 at concrete inputs. -/
theorem C7_parseHost_spec_witness :
    (¬ '@' ∈ "root".data) ∧
    parseHost ("root" ++ "@" ++ "10.0.0.1:2222") =
      ((if strContains "10.0.0.1:2222" ":" then "10.0.0.1:2222"
        else "10.0.0.1:2222" ++ ":22"), "root") :=
  ⟨by decide, C7_parseHost_spec.1 "root" "10.0.0.1:2222" (by decide)⟩

/-- The joined `host:port` part always contains a `:`. -/
theorem strContains_colon (h p : String) :
    strContains (h ++ ":" ++ p) ":" = true := by
  show containsL [':'] ((h ++ ":") ++ p).data = true
  rw [String.data_append, String.data_append]
  rw [List.append_assoc]
  refine containsL_append_right _ ?_
  show containsL [':'] (':' :: p.data) = true
  exact containsL_of_hasPrefixL (by simp [hasPrefixL])

/-- C8 counterexample: for the user `"a@b"` (which contains `@`),
`parse(join(u, h, p))` is not `(u, h:p)` - the parser splits at the first
`@`, returning user `"a"` and address `"b@h:1"`. -/
theorem C8_parse_join_counterexample :
    ¬ ((parseHost (joinHost "a@b" "h" "1")).2 = "a@b" ∧
       (parseHost (joinHost "a@b" "h" "1")).1 = "h" ++ ":" ++ "1") := by
  decide

/-- C8 (amended): for every user, host and port containing no `@`,
parsing the canonicalized bastion string is a left-inverse of joining:
`parse(join(u, h, p)) = (u, h:p)`. -/
theorem C8_parse_join_amended (u h p : String) (hu : ¬ '@' ∈ u.data)
    (hh : ¬ '@' ∈ h.data) (hp : ¬ '@' ∈ p.data) :
    (parseHost (joinHost u h p)).2 = u ∧
    (parseHost (joinHost u h p)).1 = h ++ ":" ++ p := by
  by_cases hu0 : u = ""
  · subst hu0
    have hj : joinHost "" h p = h ++ ":" ++ p := by
      simp [joinHost]
    have hs : ¬ '@' ∈ (h ++ ":" ++ p).data := by
      rw [show (h ++ ":" ++ p).data = h.data ++ ":".data ++ p.data from by
        rw [String.data_append, String.data_append]]
      simp only [List.mem_append]
      rintro (⟨hm | hm⟩ | hm)
      · exact hh hm
      · revert hm
        decide
      · exact hp hm
    rw [hj, parseHost_noAt _ hs, strContains_colon]
    exact ⟨rfl, rfl⟩
  · have hj : joinHost u h p = u ++ "@" ++ (h ++ ":" ++ p) := by
      simp only [joinHost, if_neg hu0]
      simp [String.append_assoc]
    rw [hj, parseHost_at _ _ hu, strContains_colon]
    exact ⟨rfl, rfl⟩

/-- Witness for the amended C8 at concrete inputs. -/
theorem C8_parse_join_amended_witness :
    (¬ '@' ∈ "deploy".data) ∧
    (parseHost (joinHost "deploy" "bastion" "2222")).2 = "deploy" ∧
    (parseHost (joinHost "deploy" "bastion" "2222")).1 = "bastion" ++ ":" ++ "2222" :=
  ⟨by decide,
    C8_parse_join_amended "deploy" "bastion" "2222" (by decide) (by decide) (by decide)⟩

/-! ## Functional claims about single manager transitions -/

/-- C2: when the Forwarder call made by `Manager.Start` returns with
result `e`, the manager sets the tunnel's status to `error` with the
tunnel's error string equal to `e`'s message if `e` is non-nil and
different from `ErrTunnelClosed`, and otherwise `disconnected` with an
empty error string; in both cases it clears the cancel handle and fires
the on-change callback with the new status. -/
theorem C2_forwarder_return (m : Manager) (name : String) (g : Nat)
    (e : Option FwdErr) (mt : ManagedTunnel)
    (hl : lookupT m.tunnels name = some mt) (hg : mt.gen = g) :
    (∀ msg, e = some (.fail msg) →
      lookupT (m.fwdReturn name g e).1.tunnels name =
        some { mt with Status := .error, Error := msg, cancel := false } ∧
      (m.fwdReturn name g e).2 = ⟨name, .error, msg⟩) ∧
    (e = none ∨ e = some .closed →
      lookupT (m.fwdReturn name g e).1.tunnels name =
        some { mt with Status := .disconnected, Error := "", cancel := false } ∧
      (m.fwdReturn name g e).2 = ⟨name, .disconnected, ""⟩) := by
  constructor
  · rintro msg rfl
    simp only [Manager.fwdReturn, termState, hl, hg, if_pos rfl]
    exact ⟨lookupT_updateT_self _ hl, trivial⟩
  · rintro (rfl | rfl) <;>
    · simp only [Manager.fwdReturn, termState, hl, hg, if_pos rfl]
      exact ⟨lookupT_updateT_self _ hl, trivial⟩

/-- Witness for C2 at a concrete manager. -/
theorem C2_forwarder_return_witness :
    lookupT (initManager ["t"]).tunnels "t" =
      some ⟨.disconnected, "", false, false, false, 0⟩ ∧
    lookupT ((initManager ["t"]).fwdReturn "t" 0 (some (.fail "boom"))).1.tunnels "t" =
      some ⟨.error, "boom", false, false, false, 0⟩ ∧
    ((initManager ["t"]).fwdReturn "t" 0 (some (.fail "boom"))).2 =
      ⟨"t", .error, "boom"⟩ := by
  have h := (C2_forwarder_return (initManager ["t"]) "t" 0 (some (.fail "boom"))
    ⟨.disconnected, "", false, false, false, 0⟩ (by decide) rfl).1 "boom" rfl
  exact ⟨by decide, h.1, h.2⟩

/-- C4: `Manager.Start` returns a *not found* error for an unknown name
and an *already <state>* error for an active tunnel, leaving the manager
unchanged in both cases; the `tunnel.start` handler maps any
`Manager.Start` error whose message contains `"already"` to code 1002. -/
theorem C4_start_errors :
    (∀ (m : Manager) (name : String), lookupT m.tunnels name = none →
      m.Start name = ⟨m, none, some (notFoundMsg name)⟩ ∧
      strContains (notFoundMsg name) "not found" = true) ∧
    (∀ (m : Manager) (name : String) (mt : ManagedTunnel),
      lookupT m.tunnels name = some mt → mt.Status.IsActive = true →
      m.Start name = ⟨m, none, some (alreadyMsg name mt.Status)⟩ ∧
      startErrReply (alreadyMsg name mt.Status) =
        .rpcError ErrCodeTunnelActive (alreadyMsg name mt.Status)) ∧
    (∀ msg : String, strContains msg "already" = true →
      startErrReply msg = .rpcError ErrCodeTunnelActive msg) := by
  refine ⟨fun m name h => ?_, fun m name mt hl ha => ?_, fun msg h => ?_⟩
  · exact ⟨by simp [Manager.Start, h], notFoundMsg_contains name⟩
  · refine ⟨by simp [Manager.Start, hl, ha], ?_⟩
    simp [startErrReply, alreadyMsg_contains]
  · simp [startErrReply, h]

/-- Witness for C4: an empty manager rejects an unknown name, and a
just-started tunnel is rejected as `already connecting`. -/
theorem C4_start_errors_witness :
    lookupT (initManager []).tunnels "db" = none ∧
    (initManager []).Start "db" = ⟨initManager [], none, some (notFoundMsg "db")⟩ ∧
    lookupT ((initManager ["t"]).Start "t").mgr.tunnels "t" =
      some ⟨.connecting, "", false, true, false, 0⟩ ∧
    ((initManager ["t"]).Start "t").mgr.Start "t" =
      ⟨((initManager ["t"]).Start "t").mgr, none,
        some (alreadyMsg "t" State.connecting)⟩ ∧
    startErrReply (alreadyMsg "t" State.connecting) =
      .rpcError ErrCodeTunnelActive (alreadyMsg "t" State.connecting) := by
  have h1 := (C4_start_errors.1 (initManager []) "db" (by decide)).1
  have h2 := C4_start_errors.2.1 ((initManager ["t"]).Start "t").mgr "t"
    ⟨.connecting, "", false, true, false, 0⟩ (by decide) (by decide)
  exact ⟨by decide, h1, by decide, h2.1, h2.2⟩

/-- The code of an error reply, if it is one. -/
def replyCode : RpcReply → Option Int
  | .rpcError c _ => some c
  | _ => none

/-- C5 counterexample: a disconnected tunnel whose *name* is the string
`"not found"` exists in the manager, yet `tunnel.stop` answers with code
1001 (tunnel not found) instead of 1003 (tunnel not active), because the
handler classifies `Manager.Stop` errors by substring matching on the
message `tunnel "not found" is not running`. -/
theorem C5_stop_rpc_counterexample :
    lookupT (initManager ["not found"]).tunnels "not found" =
      some ⟨.disconnected, "", false, false, false, 0⟩ ∧
    replyCode (handleTunnelStop (initManager ["not found"]) "not found").2 =
      some ErrCodeTunnelNotFound ∧
    ErrCodeTunnelNotFound ≠ ErrCodeTunnelInactive := by
  decide

/-- C5 (amended): `tunnel.stop` returns code 1001 when the (non-empty)
named tunnel is not in the set and code 1003 when it exists but is
inactive - provided the name does not itself contain the substring
`"not found"`, since the handler routes on the error text - leaving the
manager unchanged in both cases; on an active tunnel `Manager.Stop` fires
the cancel handle and returns no error. -/
theorem C5_stop_rpc_amended :
    (∀ (m : Manager) (name : String), name ≠ "" → lookupT m.tunnels name = none →
      handleTunnelStop m name =
        (m, .rpcError ErrCodeTunnelNotFound (notFoundMsg name))) ∧
    (∀ (m : Manager) (name : String) (mt : ManagedTunnel),
      name ≠ "" → strContains name "not found" = false →
      lookupT m.tunnels name = some mt → mt.Status.IsActive = false →
      handleTunnelStop m name =
        (m, .rpcError ErrCodeTunnelInactive (notRunningMsg name))) ∧
    (∀ (m : Manager) (name : String) (mt : ManagedTunnel),
      lookupT m.tunnels name = some mt → mt.Status.IsActive = true →
      (m.Stop name).err = none ∧
      (mt.cancel = true →
        lookupT (m.Stop name).mgr.tunnels name =
          some { mt with cancelFired := true })) := by
  refine ⟨fun m name hne h => ?_, fun m name mt hne hnf hl hact => ?_,
    fun m name mt hl hact => ?_⟩
  · simp [handleTunnelStop, hne, Manager.Stop, h, notFoundMsg_contains]
  · have hmsg := notRunningMsg_not_contains hnf
    simp [handleTunnelStop, hne, Manager.Stop, hl, hact, hmsg,
      notRunningMsg_contains]
  · constructor
    · simp [Manager.Stop, hl, hact]
    · intro hc
      simp only [Manager.Stop, fireCancel, hl, hact, Bool.not_true,
        Bool.false_eq_true, if_false, hc, if_pos rfl]
      exact lookupT_updateT_self _ hl

/-- Witness for the amended C5 at concrete managers. -/
theorem C5_stop_rpc_amended_witness :
    handleTunnelStop (initManager ["t"]) "db" =
      (initManager ["t"], .rpcError ErrCodeTunnelNotFound (notFoundMsg "db")) ∧
    handleTunnelStop (initManager ["t"]) "t" =
      (initManager ["t"], .rpcError ErrCodeTunnelInactive (notRunningMsg "t")) ∧
    (((initManager ["t"]).Start "t").mgr.Stop "t").err = none ∧
    lookupT (((initManager ["t"]).Start "t").mgr.Stop "t").mgr.tunnels "t" =
      some ⟨.connecting, "", false, true, true, 0⟩ := by
  have h1 := C5_stop_rpc_amended.1 (initManager ["t"]) "db" (by decide) (by decide)
  have h2 := C5_stop_rpc_amended.2.1 (initManager ["t"]) "t"
    ⟨.disconnected, "", false, false, false, 0⟩ (by decide) (by decide)
    (by decide) (by decide)
  have h3 := C5_stop_rpc_amended.2.2 ((initManager ["t"]).Start "t").mgr "t"
    ⟨.connecting, "", false, true, false, 0⟩ (by decide) (by decide)
  exact ⟨h1, h2, h3.1, h3.2 rfl⟩

/-- C6: a successful `Manager.Stop` of an active ephemeral tunnel
schedules the delayed removal task, and that task removes the tunnel iff
it is then still present and inactive, leaving every other tunnel (and a
still-active tunnel) untouched. -/
theorem C6_ephemeral_removal :
    (∀ (m : Manager) (name : String) (mt : ManagedTunnel),
      lookupT m.tunnels name = some mt → mt.Ephemeral = true →
      mt.Status.IsActive = true →
      (m.Stop name).err = none ∧ name ∈ (m.Stop name).mgr.pendingRemovals) ∧
    (∀ (m : Manager) (name : String) (mt : ManagedTunnel),
      (m.tunnels.map Prod.fst).Nodup →
      lookupT m.tunnels name = some mt →
      (mt.Status.IsActive = true →
        lookupT (m.removeEphemeral name).tunnels name = some mt) ∧
      (mt.Status.IsActive = false →
        lookupT (m.removeEphemeral name).tunnels name = none)) ∧
    (∀ (m : Manager) (name other : String), other ≠ name →
      lookupT (m.removeEphemeral name).tunnels other = lookupT m.tunnels other) ∧
    (∀ (m : Manager) (name : String), lookupT m.tunnels name = none →
      lookupT (m.removeEphemeral name).tunnels name = none) := by
  refine ⟨fun m name mt hl he ha => ?_, fun m name mt hnd hl => ⟨fun ha => ?_, fun hi => ?_⟩,
    fun m name other hne => ?_, fun m name h => ?_⟩
  · constructor
    · simp [Manager.Stop, hl, ha]
    · simp [Manager.Stop, hl, ha, he]
  · simp [Manager.removeEphemeral, hl, ha]
  · simp only [Manager.removeEphemeral, hl, hi, Bool.false_eq_true, if_false]
    exact lookupT_removeT_self hnd
  · simp only [Manager.removeEphemeral]
    cases hl : lookupT m.tunnels name with
    | none => rfl
    | some mt =>
      by_cases ha : mt.Status.IsActive
      · simp [ha]
      · simp only [Bool.not_eq_true] at ha
        simp only [ha, Bool.false_eq_true, if_false]
        exact lookupT_removeT_ne hne
  · simp [Manager.removeEphemeral, h]

/-- Witness for C6: a registered (hence ephemeral) tunnel is started,
stopped, and then collected by the removal task. -/
theorem C6_ephemeral_removal_witness :
    ((run (initManager []) [.register "e", .start "e"]).1.Stop "e").err = none ∧
    "e" ∈ ((run (initManager []) [.register "e", .start "e"]).1.Stop "e").mgr.pendingRemovals ∧
    lookupT ((run (initManager []) [.register "e", .start "e", .stop "e",
      .fwdReturn "e" 0 (some .closed)]).1.removeEphemeral "e").tunnels "e" = none ∧
    lookupT ((run (initManager []) [.register "e", .start "e"]).1.removeEphemeral "e").tunnels "e" =
      some ⟨.connecting, "", true, true, false, 0⟩ := by
  have h1 := C6_ephemeral_removal.1 (run (initManager []) [.register "e", .start "e"]).1
    "e" ⟨.connecting, "", true, true, false, 0⟩ (by decide) rfl (by decide)
  have h2 := (C6_ephemeral_removal.2.1 (run (initManager []) [.register "e", .start "e",
    .stop "e", .fwdReturn "e" 0 (some .closed)]).1 "e"
    ⟨.disconnected, "", true, false, true, 0⟩ (by decide) (by decide)).2 (by decide)
  have h3 := (C6_ephemeral_removal.2.1 (run (initManager []) [.register "e", .start "e"]).1
    "e" ⟨.connecting, "", true, true, false, 0⟩ (by decide) (by decide)).1 (by decide)
  exact ⟨h1.1, h1.2, h2, h3⟩

/-- C9: the client read loop routes a decoded message with a non-empty
`id` to the reply slot registered under that id (removing the slot, or
dropping the message when no slot is registered), otherwise enqueues a
message with a non-empty `method` on the notification queue of capacity
100 (dropping it when the queue is full), and otherwise drops it. -/
theorem C9_client_read_routing (c : ClientState) (msg : RawMsg) :
    notifCap = 100 ∧
    (msg.id ≠ "" → msg.id ∈ c.responses →
      readLoopStep c msg =
        { c with responses := c.responses.erase msg.id,
                 delivered := c.delivered ++ [(msg.id, msg)] }) ∧
    (msg.id ≠ "" → ¬ msg.id ∈ c.responses → readLoopStep c msg = c) ∧
    (msg.id ≠ "" → (readLoopStep c msg).notifications = c.notifications) ∧
    (msg.id = "" → msg.method ≠ "" → c.notifications.length < 100 →
      readLoopStep c msg = { c with notifications := c.notifications ++ [msg] }) ∧
    (msg.id = "" → msg.method ≠ "" → ¬ c.notifications.length < 100 →
      readLoopStep c msg = c) ∧
    (msg.id = "" → msg.method = "" → readLoopStep c msg = c) := by
  refine ⟨rfl, fun h1 h2 => ?_, fun h1 h2 => ?_, fun h1 => ?_, fun h1 h2 h3 => ?_,
    fun h1 h2 h3 => ?_, fun h1 h2 => ?_⟩
  · simp [readLoopStep, h1, h2]
  · simp [readLoopStep, h1, h2]
  · by_cases h2 : msg.id ∈ c.responses <;> simp [readLoopStep, h1, h2]
  · simp [readLoopStep, h1, h2, notifCap, h3]
  · simp [readLoopStep, h1, h2, notifCap, h3]
  · simp [readLoopStep, h1, h2]

/-- Witness for C9 at a concrete client state. -/
theorem C9_client_read_routing_witness :
    readLoopStep ⟨["1", "2"], [], []⟩ ⟨"2", ""⟩ =
      ⟨["1"], [("2", ⟨"2", ""⟩)], []⟩ ∧
    readLoopStep ⟨["1"], [], []⟩ ⟨"", "tunnel.statusChanged"⟩ =
      ⟨["1"], [], [⟨"", "tunnel.statusChanged"⟩]⟩ ∧
    readLoopStep ⟨["1"], [], []⟩ ⟨"", ""⟩ = ⟨["1"], [], []⟩ := by
  have h1 := (C9_client_read_routing ⟨["1", "2"], [], []⟩ ⟨"2", ""⟩).2.1
    (by decide) (by decide)
  have h2 := (C9_client_read_routing ⟨["1"], [], []⟩
    ⟨"", "tunnel.statusChanged"⟩).2.2.2.2.1 rfl (by decide) (by decide)
  have h3 := (C9_client_read_routing ⟨["1"], [], []⟩ ⟨"", ""⟩).2.2.2.2.2.2 rfl rfl
  exact ⟨by simpa using h1, by simpa using h2, h3⟩

/-- C10: `Manager.Status` reports a missing tunnel as
`(disconnected, "tunnel not found")` rather than via a distinguished error
value; the `tunnel.status` handler detects non-existence (code 1001)
solely by comparing that string, so an existing tunnel whose stored error
string is exactly `"tunnel not found"` is also answered with code 1001. -/
theorem C10_status_sentinel :
    (∀ (m : Manager) (name : String), lookupT m.tunnels name = none →
      m.Status name = (State.disconnected, "tunnel not found")) ∧
    (∀ (m : Manager) (name : String), name ≠ "" → lookupT m.tunnels name = none →
      handleTunnelStatus m name = .rpcError ErrCodeTunnelNotFound "tunnel not found") ∧
    (∀ (m : Manager) (name : String) (mt : ManagedTunnel),
      name ≠ "" → lookupT m.tunnels name = some mt →
      mt.Error = "tunnel not found" →
      handleTunnelStatus m name = .rpcError ErrCodeTunnelNotFound "tunnel not found") := by
  refine ⟨fun m name h => ?_, fun m name hne h => ?_, fun m name mt hne hl he => ?_⟩
  · simp [Manager.Status, h]
  · simp [handleTunnelStatus, hne, Manager.Status, h]
  · simp [handleTunnelStatus, hne, Manager.Status, hl, he]

/-- Witness for C10: a connected tunnel whose error string happens to be
the sentinel text is misreported as not found. -/
theorem C10_status_sentinel_witness :
    (initManager []).Status "db" = (State.disconnected, "tunnel not found") ∧
    handleTunnelStatus (initManager []) "db" =
      .rpcError ErrCodeTunnelNotFound "tunnel not found" ∧
    handleTunnelStatus
      ⟨[("x", ⟨.connected, "tunnel not found", false, true, false, 0⟩)], 1, [], [], []⟩
      "x" = .rpcError ErrCodeTunnelNotFound "tunnel not found" := by
  refine ⟨C10_status_sentinel.1 (initManager []) "db" (by decide),
    C10_status_sentinel.2.1 (initManager []) "db" (by decide) (by decide),
    C10_status_sentinel.2.2
      ⟨[("x", ⟨.connected, "tunnel not found", false, true, false, 0⟩)], 1, [], [], []⟩
      "x" ⟨.connected, "tunnel not found", false, true, false, 0⟩
      (by decide) (by decide) rfl⟩

/-! ## The per-tunnel transition system (claims C1 and C3) -/

/-- The transition set asserted by the specification:
`{disconnected→connecting, connecting→connected, connecting→error,
connected→error, connected→disconnected, error→disconnected}`. -/
def specEdge : State → State → Bool
  | .disconnected, .connecting => true
  | .connecting, .connected => true
  | .connecting, .error => true
  | .connected, .error => true
  | .connected, .disconnected => true
  | .error, .disconnected => true
  | _, _ => false

/-- The transition set the code actually realises: the specified one plus
`error→connecting` (restart after a failure) and
`connecting→disconnected` (stop during the readiness window). -/
def codeEdge : State → State → Bool
  | .disconnected, .connecting => true
  | .error, .connecting => true
  | .connecting, .connected => true
  | .connecting, .error => true
  | .connecting, .disconnected => true
  | .connected, .error => true
  | .connected, .disconnected => true
  | .error, .disconnected => true
  | _, _ => false

/-- Every adjacent pair of a status sequence lies in the edge set. -/
def pathOk (E : State → State → Bool) : List State → Bool
  | [] => true
  | [_] => true
  | a :: b :: t => E a b && pathOk E (b :: t)

theorem pathOk_concat {E : State → State → Bool} {l : List State} {s : State}
    (hp : pathOk E l = true) (hl : ∀ a, l.getLast? = some a → E a s = true) :
    pathOk E (l ++ [s]) = true := by
  induction l with
  | nil => rfl
  | cons a t ih =>
    cases t with
    | nil =>
      simp only [List.cons_append, List.nil_append, pathOk, Bool.and_eq_true]
      exact ⟨hl a rfl, by trivial⟩
    | cons b t' =>
      simp only [pathOk, Bool.and_eq_true] at hp
      have := ih hp.2 (fun a' ha' => hl a' (by rw [List.getLast?_cons_cons]; exact ha'))
      simp only [List.cons_append, pathOk, Bool.and_eq_true]
      exact ⟨hp.1, by simpa using this⟩

theorem obsOf_append (tr : List StatusChange) (ch : StatusChange) (n : String) :
    obsOf (tr ++ [ch]) n =
      if ch.Name = n then obsOf tr n ++ [ch.Status] else obsOf tr n := by
  by_cases h : ch.Name = n <;> simp [obsOf, List.filter_append, h]

theorem lastObs_append_self (tr : List StatusChange) (ch : StatusChange) :
    lastObs (tr ++ [ch]) ch.Name = some ch.Status := by
  simp [lastObs, obsOf_append]

theorem lastObs_append_ne (tr : List StatusChange) (ch : StatusChange)
    {n : String} (h : ¬ ch.Name = n) : lastObs (tr ++ [ch]) n = lastObs tr n := by
  simp [lastObs, obsOf_append, h]

theorem lookupT_mem {l : List (String × ManagedTunnel)} {n : String}
    {mt : ManagedTunnel} (h : lookupT l n = some mt) : (n, mt) ∈ l := by
  induction l with
  | nil => simp [lookupT] at h
  | cons p t ih =>
    obtain ⟨k, v⟩ := p
    by_cases hk : k = n
    · subst hk
      simp only [lookupT, eq_self_iff_true, if_true, Option.some.injEq] at h
      subst h
      exact List.mem_cons_self _ _
    · simp only [lookupT, if_neg hk] at h
      exact List.mem_cons_of_mem _ (ih h)

theorem lookupT_map (g : ManagedTunnel → ManagedTunnel)
    (l : List (String × ManagedTunnel)) (n : String) :
    lookupT (l.map fun p => (p.1, g p.2)) n = (lookupT l n).map g := by
  induction l with
  | nil => simp [lookupT]
  | cons p t ih =>
    obtain ⟨k, v⟩ := p
    by_cases hk : k = n
    · subst hk
      simp [lookupT]
    · simp [lookupT, hk, ih]

theorem erase_fst_ne {l : List (String × Nat)} {n : String} {g : Nat}
    (hnd : (l.map Prod.fst).Nodup) (hin : (n, g) ∈ l) :
    ∀ pr ∈ l.erase (n, g), pr.1 ≠ n := by
  induction l with
  | nil => simp
  | cons a t ih =>
    simp only [List.map_cons, List.nodup_cons] at hnd
    intro pr hpr
    rw [List.erase_cons] at hpr
    by_cases ha : a = (n, g)
    · rw [if_pos (by simp [ha])] at hpr
      intro hpn
      have hmem := List.mem_map_of_mem Prod.fst hpr
      rw [hpn] at hmem
      exact hnd.1 (by rw [ha]; exact hmem)
    · rw [if_neg (by simpa using ha)] at hpr
      have hin' : (n, g) ∈ t := by
        rcases List.mem_cons.mp hin with h | h
        · exact absurd h.symm ha
        · exact h
      rcases List.mem_cons.mp hpr with h | h
      · subst h
        intro hpn
        have hmem := List.mem_map_of_mem Prod.fst hin'
        exact hnd.1 (by rw [hpn]; exact hmem)
      · exact ih hnd.2 hin' pr h

theorem fwdsUniq_erase {l : List (String × Nat)} (a : String × Nat)
    (hnd : (l.map Prod.fst).Nodup) : ((l.erase a).map Prod.fst).Nodup :=
  hnd.sublist (List.Sublist.map _ (List.erase_sublist a l))

theorem updateT_map_fst (l : List (String × ManagedTunnel)) (n : String)
    (mt : ManagedTunnel) : (updateT l n mt).map Prod.fst = l.map Prod.fst := by
  induction l with
  | nil => rfl
  | cons p t ih =>
    obtain ⟨k, v⟩ := p
    by_cases hk : k = n
    · subst hk
      simp [updateT]
    · simp [updateT, hk, ih]

theorem removeT_sublist (l : List (String × ManagedTunnel)) (n : String) :
    List.Sublist (removeT l n) l := by
  induction l with
  | nil => simp [removeT]
  | cons p t ih =>
    obtain ⟨k, v⟩ := p
    by_cases hk : k = n
    · subst hk
      simp only [removeT, if_pos rfl]
      exact (List.sublist_cons_self _ _)
    · simp only [removeT, if_neg hk]
      exact ih.cons₂ _

theorem not_mem_removeT_fst {l : List (String × ManagedTunnel)} {n : String}
    (hnd : (l.map Prod.fst).Nodup) : ¬ n ∈ (removeT l n).map Prod.fst := by
  induction l with
  | nil => simp [removeT]
  | cons p t ih =>
    obtain ⟨k, v⟩ := p
    simp only [List.map_cons, List.nodup_cons] at hnd
    by_cases hk : k = n
    · subst hk
      simp only [removeT, if_pos rfl]
      exact hnd.1
    · simp only [removeT, if_neg hk, List.map_cons, List.mem_cons]
      rintro (h | h)
      · exact hk h.symm
      · exact ih hnd.2 h

theorem insertT_keys_nodup {l : List (String × ManagedTunnel)} (n : String)
    (mt : ManagedTunnel) (hnd : (l.map Prod.fst).Nodup) :
    ((insertT l n mt).map Prod.fst).Nodup := by
  simp only [insertT, List.map_cons, List.nodup_cons]
  exact ⟨not_mem_removeT_fst hnd,
    hnd.sublist (List.Sublist.map _ (removeT_sublist l n))⟩

theorem initAcc_keys_nodup (acc : List (String × ManagedTunnel)) (g : Nat)
    (ns : List String) (hnd : (acc.map Prod.fst).Nodup) :
    ((initAcc acc g ns).map Prod.fst).Nodup := by
  induction ns generalizing acc g with
  | nil => exact hnd
  | cons n ns' ih => exact ih _ _ (insertT_keys_nodup n _ hnd)

theorem mem_fst_lookupT {l : List (String × ManagedTunnel)} {n : String}
    (h : n ∈ l.map Prod.fst) : ∃ mt, lookupT l n = some mt := by
  induction l with
  | nil => simp at h
  | cons p t ih =>
    obtain ⟨k, v⟩ := p
    by_cases hk : k = n
    · subst hk
      exact ⟨v, by simp [lookupT]⟩
    · simp only [List.map_cons, List.mem_cons] at h
      rcases h with h | h
      · exact absurd h.symm hk
      · obtain ⟨mt, hmt⟩ := ih h
        exact ⟨mt, by simp [lookupT, hk, hmt]⟩

/-- The inductive invariant of the manager transition system, tying the
state to the trace of emitted status changes. -/
structure Inv (m : Manager) (tr : List StatusChange) : Prop where
  keysUniq : (m.tunnels.map Prod.fst).Nodup
  cancelInv : ∀ p ∈ m.tunnels, p.2.cancel = p.2.Status.IsActive
  fwdsLive : ∀ pr ∈ m.pendingFwds, ∃ mt, lookupT m.tunnels pr.1 = some mt ∧
    mt.gen = pr.2 ∧ mt.Status.IsActive = true
  lastActive : ∀ n s, lastObs tr n = some s → s.IsActive = true →
    ∃ mt, lookupT m.tunnels n = some mt ∧ mt.Status = s
  fwdsObs : ∀ pr ∈ m.pendingFwds, ∃ s, lastObs tr pr.1 = some s ∧ s.IsActive = true
  fwdsUniq : (m.pendingFwds.map Prod.fst).Nodup
  connObs : ∀ n mt, lookupT m.tunnels n = some mt → mt.Status = .connecting →
    lastObs tr n = some .connecting
  pathInv : ∀ n, pathOk codeEdge (obsOf tr n) = true

theorem mem_insertT {l : List (String × ManagedTunnel)} {n : String}
    {mt : ManagedTunnel} {p : String × ManagedTunnel} (h : p ∈ insertT l n mt) :
    p = (n, mt) ∨ p ∈ l := by
  rcases List.mem_cons.mp h with h | h
  · exact Or.inl h
  · exact Or.inr (mem_removeT h)

theorem mem_initAcc {acc : List (String × ManagedTunnel)} {g : Nat}
    {ns : List String} {p : String × ManagedTunnel} (hp : p ∈ initAcc acc g ns)
    (hacc : ∀ q ∈ acc, q.2.Status = State.disconnected ∧ q.2.cancel = false) :
    p.2.Status = State.disconnected ∧ p.2.cancel = false := by
  induction ns generalizing acc g with
  | nil => exact hacc p hp
  | cons n ns' ih =>
    refine ih hp (fun q hq => ?_)
    rcases mem_insertT hq with h | h
    · subst h
      exact ⟨rfl, rfl⟩
    · exact hacc q h

/-- The initial manager satisfies the invariant with the empty trace. -/
theorem inv_init (names : List String) : Inv (initManager names) [] := by
  refine ⟨?_, fun p hp => ?_, fun pr hpr => ?_, fun n s hs => ?_, fun pr hpr => ?_,
    ?_, fun n mt hl hc => ?_, fun n => ?_⟩
  · exact initAcc_keys_nodup [] 0 names (by simp)
  · have := mem_initAcc hp (fun q hq => by simp at hq)
    rw [this.2, this.1]
    rfl
  · simp [initManager] at hpr
  · simp [lastObs, obsOf] at hs
  · simp [initManager] at hpr
  · simp [initManager]
  · have := (mem_initAcc (lookupT_mem hl) (fun q hq => by simp at hq)).1
    rw [this] at hc
    cases hc
  · simp [obsOf, pathOk]

theorem isActive_iff {s : State} :
    s.IsActive = true ↔ (s = State.connecting ∨ s = State.connected) := by
  cases s <;> simp [State.IsActive]

theorem codeEdge_to_connecting {a : State} (ha : a.IsActive = false) :
    codeEdge a .connecting = true := by
  cases a <;> simp_all [State.IsActive, codeEdge]

theorem codeEdge_from_active {a st : State} (ha : a.IsActive = true)
    (hst : st.IsActive = false) : codeEdge a st = true := by
  cases a <;> cases st <;> simp_all [State.IsActive, codeEdge]

theorem termState_fst_inactive (e : Option FwdErr) :
    (termState e).1.IsActive = false := by
  rcases e with _ | e
  · rfl
  · cases e <;> rfl

/-- Invariant preservation: `Manager.Start`. -/
theorem inv_start {m : Manager} {tr : List StatusChange} (n : String)
    (h : Inv m tr) :
    Inv (step m (.start n)).1 (tr ++ ((step m (.start n)).2).toList) := by
  show Inv (m.Start n).mgr (tr ++ ((m.Start n).emit).toList)
  cases hl : lookupT m.tunnels n with
  | none =>
    simp only [Manager.Start, hl]
    simpa using h
  | some mt =>
    by_cases ha : mt.Status.IsActive = true
    · simp only [Manager.Start, hl, ha, if_true]
      simpa using h
    · have haF : mt.Status.IsActive = false := by
        cases hb : mt.Status.IsActive
        · rfl
        · exact absurd hb ha
      simp only [Manager.Start, hl, haF, Bool.false_eq_true, if_false,
        Option.toList_some]
      set ch : StatusChange := ⟨n, .connecting, ""⟩ with hch
      have hchn : ∀ n'', ch.Name = n'' → n = n'' := fun _ hc => hc
      set mt' : ManagedTunnel := ({ mt with Status := .connecting, Error := "", cancel := true, cancelFired := false } : ManagedTunnel) with hmt'
      have hne_old : ∀ pr ∈ m.pendingFwds, pr.1 ≠ n := by
        intro pr hpr hpn
        obtain ⟨mtw, hlw, _, haw⟩ := h.fwdsLive pr hpr
        rw [hpn, hl] at hlw
        rw [Option.some.inj hlw] at haF
        rw [haF] at haw
        cases haw
      refine ⟨?_, ?_, ?_, ?_, ?_, ?_, ?_, ?_⟩
      · rw [updateT_map_fst]
        exact h.keysUniq
      · intro p hp
        rcases mem_updateT hp with hp' | hp' | ⟨v, _, hp'⟩
        · exact h.cancelInv p hp'
        · rw [hp']
          rfl
        · rw [hp']
          rfl
      · intro pr hpr
        rcases List.mem_cons.mp hpr with hpr' | hpr'
        · refine ⟨mt', ?_, ?_, ?_⟩
          · rw [hpr']
            exact lookupT_updateT_self mt' hl
          · rw [hpr']
          · rfl
        · obtain ⟨mtw, hlw, hgw, haw⟩ := h.fwdsLive pr hpr'
          exact ⟨mtw, by rw [lookupT_updateT_ne mt' (hne_old pr hpr')]; exact hlw,
            hgw, haw⟩
      · intro n' s hs hsa
        by_cases hn : n' = n
        · subst hn
          have : lastObs (tr ++ [ch]) n' = some ch.Status := lastObs_append_self tr ch
          rw [this] at hs
          rw [← Option.some.inj hs]
          exact ⟨mt', lookupT_updateT_self mt' hl, rfl⟩
        · rw [lastObs_append_ne tr ch (fun hc => hn (hchn n' hc).symm)] at hs
          obtain ⟨mtw, hlw, hsw⟩ := h.lastActive n' s hs hsa
          exact ⟨mtw, by rw [lookupT_updateT_ne mt' (fun hc => hn hc)]; exact hlw, hsw⟩
      · intro pr hpr
        rcases List.mem_cons.mp hpr with hpr' | hpr'
        · refine ⟨.connecting, ?_, rfl⟩
          rw [hpr']
          exact lastObs_append_self tr ch
        · obtain ⟨s, hs, hsa⟩ := h.fwdsObs pr hpr'
          exact ⟨s, by rw [lastObs_append_ne tr ch (fun hc => hne_old pr hpr' (by simp [hch] at hc; exact hc.symm))]; exact hs, hsa⟩
      · simp only [List.map_cons, List.nodup_cons]
        constructor
        · intro hmem
          obtain ⟨pr, hpr, hfst⟩ := List.mem_map.mp hmem
          exact hne_old pr hpr hfst
        · exact h.fwdsUniq
      · intro n' mtx hlx hcx
        by_cases hn : n' = n
        · subst hn
          exact lastObs_append_self tr ch
        · rw [lookupT_updateT_ne mt' (fun hc => hn hc)] at hlx
          rw [lastObs_append_ne tr ch (fun hc => hn (hchn n' hc).symm)]
          exact h.connObs n' mtx hlx hcx
      · intro n'
        by_cases hn : n' = n
        · subst hn
          rw [obsOf_append]
          simp only [hch, if_pos rfl]
          refine pathOk_concat (h.pathInv n') (fun a ha' => ?_)
          have ha'' : lastObs tr n' = some a := ha'
          by_cases haa : a.IsActive = true
          · obtain ⟨mtw, hlw, hsw⟩ := h.lastActive n' a ha'' haa
            rw [hl] at hlw
            have hma : mt.Status = a := by
              rw [Option.some.inj hlw]
              exact hsw
            rw [← hma] at haa
            rw [haF] at haa
            exact absurd haa (by decide)
          · have : a.IsActive = false := by
              cases hb : a.IsActive
              · rfl
              · exact absurd hb haa
            exact codeEdge_to_connecting this
        · rw [obsOf_append]
          simp only [hch, if_neg (fun hc : n = n' => hn hc.symm)]
          exact h.pathInv n'

/-- Invariant preservation: the forwarder-return critical section. -/
theorem inv_fwdReturn {m : Manager} {tr : List StatusChange} (n : String)
    (g : Nat) (e : Option FwdErr) (h : Inv m tr) :
    Inv (step m (.fwdReturn n g e)).1
      (tr ++ ((step m (.fwdReturn n g e)).2).toList) := by
  by_cases hin : (n, g) ∈ m.pendingFwds
  · obtain ⟨mt, hl, hg, hact⟩ := h.fwdsLive (n, g) hin
    simp only [step, if_pos hin, Option.toList_some]
    set st : State := (termState e).1 with hst
    set er : String := (termState e).2 with her
    set newmt : ManagedTunnel := ({ mt with Status := st, Error := er, cancel := false } : ManagedTunnel) with hnewmt
    have hfr : m.fwdReturn n g e =
        ({ m with
            tunnels := updateT m.tunnels n newmt,
            pendingFwds := m.pendingFwds.erase (n, g) }, ⟨n, st, er⟩) := by
      simp only [Manager.fwdReturn, hl, hg, eq_self_iff_true, if_true]
      rw [hnewmt, hg]
    rw [hfr]
    set ch : StatusChange := ⟨n, st, er⟩ with hch
    have hchn : ∀ n'', ch.Name = n'' → n = n'' := fun _ hc => hc
    have hstI : st.IsActive = false := termState_fst_inactive e
    have hner : ∀ pr ∈ m.pendingFwds.erase (n, g), pr.1 ≠ n :=
      erase_fst_ne h.fwdsUniq hin
    refine ⟨?_, ?_, ?_, ?_, ?_, ?_, ?_, ?_⟩
    · rw [updateT_map_fst]
      exact h.keysUniq
    · intro p hp
      rcases mem_updateT hp with hp' | hp' | ⟨v, _, hp'⟩
      · exact h.cancelInv p hp'
      · rw [hp']
        exact hstI.symm
      · rw [hp']
        exact hstI.symm
    · intro pr hpr
      have hpr' : pr ∈ m.pendingFwds := List.mem_of_mem_erase hpr
      obtain ⟨mtw, hlw, hgw, haw⟩ := h.fwdsLive pr hpr'
      exact ⟨mtw, by rw [lookupT_updateT_ne newmt (hner pr hpr)]; exact hlw, hgw, haw⟩
    · intro n' s hs hsa
      by_cases hn : n' = n
      · subst hn
        rw [show lastObs (tr ++ [ch]) n' = some ch.Status from lastObs_append_self tr ch] at hs
        rw [← Option.some.inj hs] at hsa
        rw [show ch.Status = st from rfl] at hsa
        rw [hstI] at hsa
        exact absurd hsa (by decide)
      · rw [lastObs_append_ne tr ch (fun hc => hn (hchn n' hc).symm)] at hs
        obtain ⟨mtw, hlw, hsw⟩ := h.lastActive n' s hs hsa
        exact ⟨mtw, by rw [lookupT_updateT_ne newmt (fun hc => hn hc)]; exact hlw, hsw⟩
    · intro pr hpr
      obtain ⟨s, hs, hsa⟩ := h.fwdsObs pr (List.mem_of_mem_erase hpr)
      exact ⟨s, by rw [lastObs_append_ne tr ch (fun hc => hner pr hpr (hchn pr.1 hc).symm)]; exact hs, hsa⟩
    · exact fwdsUniq_erase (n, g) h.fwdsUniq
    · intro n' mtx hlx hcx
      by_cases hn : n' = n
      · subst hn
        rw [lookupT_updateT_self newmt hl] at hlx
        rw [← Option.some.inj hlx] at hcx
        rw [show newmt.Status = st from rfl] at hcx
        rw [hcx] at hstI
        exact absurd hstI (by decide)
      · rw [lookupT_updateT_ne newmt (fun hc => hn hc)] at hlx
        rw [lastObs_append_ne tr ch (fun hc => hn (hchn n' hc).symm)]
        exact h.connObs n' mtx hlx hcx
    · intro n'
      by_cases hn : n' = n
      · subst hn
        rw [obsOf_append]
        simp only [hch, if_pos rfl]
        refine pathOk_concat (h.pathInv n') (fun a ha' => ?_)
        obtain ⟨s, hs, hsa⟩ := h.fwdsObs (n', g) hin
        have : (some s : Option State) = some a := by
          rw [← hs]
          exact ha'
        rw [Option.some.inj this] at hsa
        exact codeEdge_from_active hsa hstI
      · rw [obsOf_append]
        simp only [hch, if_neg (fun hc : n = n' => hn hc.symm)]
        exact h.pathInv n'
  · simp only [step, if_neg hin]
    simpa using h

/-- Invariant preservation: the readiness promotion. -/
theorem inv_promote {m : Manager} {tr : List StatusChange} (n : String)
    (g : Nat) (h : Inv m tr) :
    Inv (step m (.promote n g)).1 (tr ++ ((step m (.promote n g)).2).toList) := by
  by_cases hin : (n, g) ∈ m.pendingPromos
  · simp only [step, if_pos hin]
    cases hl : lookupT m.tunnels n with
    | none =>
      simp only [Manager.promote, hl, Option.toList_none, List.append_nil]
      exact ⟨h.keysUniq, h.cancelInv, h.fwdsLive, h.lastActive, h.fwdsObs,
        h.fwdsUniq, h.connObs, h.pathInv⟩
    | some mt =>
      by_cases hgm : mt.gen = g
      · by_cases hcs : mt.Status = State.connecting
        · simp only [Manager.promote, hl]
          rw [if_pos hgm, if_pos hcs]
          simp only [Option.toList_some]
          set newmt : ManagedTunnel := ({ mt with Status := .connected } : ManagedTunnel) with hnewmt
          set ch : StatusChange := ⟨n, .connected, ""⟩ with hch
          have hchn : ∀ n'', ch.Name = n'' → n = n'' := fun _ hc => hc
          have hobs : lastObs tr n = some State.connecting := h.connObs n mt hl hcs
          have hcan : mt.cancel = true := by
            have := h.cancelInv (n, mt) (lookupT_mem hl)
            rw [this, hcs]
            rfl
          refine ⟨?_, ?_, ?_, ?_, ?_, ?_, ?_, ?_⟩
          · rw [updateT_map_fst]
            exact h.keysUniq
          · intro p hp
            rcases mem_updateT hp with hp' | hp' | ⟨v, _, hp'⟩
            · exact h.cancelInv p hp'
            · rw [hp']
              show mt.cancel = true
              exact hcan
            · rw [hp']
              show mt.cancel = true
              exact hcan
          · intro pr hpr
            obtain ⟨mtw, hlw, hgw, haw⟩ := h.fwdsLive pr hpr
            by_cases hn : pr.1 = n
            · rw [hn] at hlw
              rw [hl] at hlw
              have hw : mt = mtw := Option.some.inj hlw
              refine ⟨newmt, ?_, ?_, rfl⟩
              · rw [hn]
                exact lookupT_updateT_self newmt hl
              · show mt.gen = pr.2
                rw [hw]
                exact hgw
            · exact ⟨mtw, by rw [lookupT_updateT_ne newmt hn]; exact hlw, hgw, haw⟩
          · intro n' s hs hsa
            by_cases hn : n' = n
            · subst hn
              rw [show lastObs (tr ++ [ch]) n' = some ch.Status from
                lastObs_append_self tr ch] at hs
              rw [← Option.some.inj hs]
              exact ⟨newmt, lookupT_updateT_self newmt hl, rfl⟩
            · rw [lastObs_append_ne tr ch (fun hc => hn (hchn n' hc).symm)] at hs
              obtain ⟨mtw, hlw, hsw⟩ := h.lastActive n' s hs hsa
              exact ⟨mtw, by rw [lookupT_updateT_ne newmt (fun hc => hn hc)]; exact hlw, hsw⟩
          · intro pr hpr
            by_cases hn : pr.1 = n
            · refine ⟨State.connected, ?_, rfl⟩
              rw [hn]
              exact lastObs_append_self tr ch
            · obtain ⟨s, hs, hsa⟩ := h.fwdsObs pr hpr
              exact ⟨s, by rw [lastObs_append_ne tr ch (fun hc => hn (hchn pr.1 hc).symm)]; exact hs, hsa⟩
          · exact h.fwdsUniq
          · intro n' mtx hlx hcx
            by_cases hn : n' = n
            · subst hn
              rw [lookupT_updateT_self newmt hl] at hlx
              rw [← Option.some.inj hlx] at hcx
              exact absurd (show State.connected = State.connecting from hcx) (by decide)
            · rw [lookupT_updateT_ne newmt (fun hc => hn hc)] at hlx
              rw [lastObs_append_ne tr ch (fun hc => hn (hchn n' hc).symm)]
              exact h.connObs n' mtx hlx hcx
          · intro n'
            by_cases hn : n' = n
            · subst hn
              rw [obsOf_append]
              simp only [hch, if_pos rfl]
              refine pathOk_concat (h.pathInv n') (fun a ha' => ?_)
              have : (some State.connecting : Option State) = some a := by
                rw [← hobs]
                exact ha'
              rw [← Option.some.inj this]
              rfl
            · rw [obsOf_append]
              simp only [hch, if_neg (fun hc : n = n' => hn hc.symm)]
              exact h.pathInv n'
        · simp only [Manager.promote, hl]
          rw [if_pos hgm, if_neg hcs]
          simp only [Option.toList_none, List.append_nil]
          exact ⟨h.keysUniq, h.cancelInv, h.fwdsLive, h.lastActive, h.fwdsObs,
            h.fwdsUniq, h.connObs, h.pathInv⟩
      · simp only [Manager.promote, hl]
        rw [if_neg hgm]
        simp only [Option.toList_none, List.append_nil]
        exact ⟨h.keysUniq, h.cancelInv, h.fwdsLive, h.lastActive, h.fwdsObs,
          h.fwdsUniq, h.connObs, h.pathInv⟩
  · simp only [step, if_neg hin]
    simpa using h

theorem fireCancel_Status (v : ManagedTunnel) : (fireCancel v).Status = v.Status := by
  by_cases hc : v.cancel = true <;> simp [fireCancel, hc]

theorem fireCancel_cancel (v : ManagedTunnel) : (fireCancel v).cancel = v.cancel := by
  by_cases hc : v.cancel = true <;> simp [fireCancel, hc]

theorem fireCancel_gen (v : ManagedTunnel) : (fireCancel v).gen = v.gen := by
  by_cases hc : v.cancel = true <;> simp [fireCancel, hc]

/-- The invariant only depends on the tunnel set, the pending forwarders
and the trace. -/
theorem inv_carry {m : Manager} {tr : List StatusChange} (h : Inv m tr)
    (m' : Manager) (ht : m'.tunnels = m.tunnels)
    (hf : m'.pendingFwds = m.pendingFwds) : Inv m' tr := by
  refine ⟨?_, ?_, ?_, ?_, ?_, ?_, ?_, ?_⟩
  · rw [ht]
    exact h.keysUniq
  · rw [ht]
    exact h.cancelInv
  · rw [hf, ht]
    exact h.fwdsLive
  · rw [ht]
    exact h.lastActive
  · rw [hf]
    exact h.fwdsObs
  · rw [hf]
    exact h.fwdsUniq
  · rw [ht]
    exact h.connObs
  · exact h.pathInv

/-- Removing an inactive tunnel from the set preserves the invariant. -/
theorem inv_tunnels_removeT {m : Manager} {tr : List StatusChange}
    {n : String} {mt : ManagedTunnel} (h : Inv m tr)
    (hl : lookupT m.tunnels n = some mt) (haF : mt.Status.IsActive = false)
    (m' : Manager) (ht : m'.tunnels = removeT m.tunnels n)
    (hf : m'.pendingFwds = m.pendingFwds) : Inv m' tr := by
  have hnn : ∀ n', lookupT m.tunnels n' = some mt → mt.Status.IsActive = true → False :=
    fun n' _ ha => by rw [haF] at ha; cases ha
  refine ⟨?_, ?_, ?_, ?_, ?_, ?_, ?_, ?_⟩
  · rw [ht]
    exact h.keysUniq.sublist (List.Sublist.map _ (removeT_sublist m.tunnels n))
  · rw [ht]
    intro p hp
    exact h.cancelInv p (mem_removeT hp)
  · rw [hf, ht]
    intro pr hpr
    obtain ⟨mtw, hlw, hgw, haw⟩ := h.fwdsLive pr hpr
    have hne : pr.1 ≠ n := by
      intro hpn
      rw [hpn, hl] at hlw
      rw [← Option.some.inj hlw] at haw
      rw [haF] at haw
      cases haw
    exact ⟨mtw, by rw [lookupT_removeT_ne hne]; exact hlw, hgw, haw⟩
  · rw [ht]
    intro n' s hs hsa
    obtain ⟨mtw, hlw, hsw⟩ := h.lastActive n' s hs hsa
    have hne : n' ≠ n := by
      intro hpn
      rw [hpn, hl] at hlw
      have hw : mt = mtw := Option.some.inj hlw
      rw [← hw] at hsw
      rw [hsw] at haF
      rw [haF] at hsa
      cases hsa
    exact ⟨mtw, by rw [lookupT_removeT_ne hne]; exact hlw, hsw⟩
  · exact fun pr hpr => h.fwdsObs pr (by rw [← hf]; exact hpr)
  · rw [hf]
    exact h.fwdsUniq
  · rw [ht]
    intro n' mtx hlx hcx
    by_cases hn : n' = n
    · subst hn
      rw [lookupT_removeT_self h.keysUniq] at hlx
      cases hlx
    · rw [lookupT_removeT_ne hn] at hlx
      exact h.connObs n' mtx hlx hcx
  · exact h.pathInv

/-- Invariant preservation: `Manager.Stop`. -/
theorem inv_stop {m : Manager} {tr : List StatusChange} (n : String)
    (h : Inv m tr) :
    Inv (step m (.stop n)).1 (tr ++ ((step m (.stop n)).2).toList) := by
  simp only [step, Option.toList_none, List.append_nil]
  cases hl : lookupT m.tunnels n with
  | none =>
    simp only [Manager.Stop, hl]
    exact h
  | some mt =>
    by_cases ha : mt.Status.IsActive = true
    · simp only [Manager.Stop, hl, ha, Bool.not_true, Bool.false_eq_true, if_false]
      refine ⟨?_, ?_, ?_, ?_, ?_, ?_, ?_, ?_⟩
      · rw [updateT_map_fst]
        exact h.keysUniq
      · intro p hp
        rcases mem_updateT hp with hp' | hp' | ⟨v, _, hp'⟩
        · exact h.cancelInv p hp'
        · rw [hp']
          show (fireCancel mt).cancel = (fireCancel mt).Status.IsActive
          rw [fireCancel_cancel, fireCancel_Status]
          exact h.cancelInv (n, mt) (lookupT_mem hl)
        · rw [hp']
          show (fireCancel mt).cancel = (fireCancel mt).Status.IsActive
          rw [fireCancel_cancel, fireCancel_Status]
          exact h.cancelInv (n, mt) (lookupT_mem hl)
      · intro pr hpr
        obtain ⟨mtw, hlw, hgw, haw⟩ := h.fwdsLive pr hpr
        by_cases hn : pr.1 = n
        · rw [hn, hl] at hlw
          have hw : mt = mtw := Option.some.inj hlw
          refine ⟨fireCancel mt, ?_, ?_, ?_⟩
          · rw [hn]
            exact lookupT_updateT_self (fireCancel mt) hl
          · rw [fireCancel_gen, hw]
            exact hgw
          · rw [fireCancel_Status, hw]
            exact haw
        · exact ⟨mtw, by rw [lookupT_updateT_ne (fireCancel mt) hn]; exact hlw, hgw, haw⟩
      · intro n' s hs hsa
        obtain ⟨mtw, hlw, hsw⟩ := h.lastActive n' s hs hsa
        by_cases hn : n' = n
        · rw [hn, hl] at hlw
          have hw : mt = mtw := Option.some.inj hlw
          refine ⟨fireCancel mt, ?_, ?_⟩
          · rw [hn]
            exact lookupT_updateT_self (fireCancel mt) hl
          · rw [fireCancel_Status, hw]
            exact hsw
        · exact ⟨mtw, by rw [lookupT_updateT_ne (fireCancel mt) hn]; exact hlw, hsw⟩
      · exact h.fwdsObs
      · exact h.fwdsUniq
      · intro n' mtx hlx hcx
        by_cases hn : n' = n
        · subst hn
          rw [lookupT_updateT_self (fireCancel mt) hl] at hlx
          rw [← Option.some.inj hlx] at hcx
          rw [fireCancel_Status] at hcx
          exact h.connObs n' mt hl hcx
        · rw [lookupT_updateT_ne (fireCancel mt) hn] at hlx
          exact h.connObs n' mtx hlx hcx
      · exact h.pathInv
    · have haF : mt.Status.IsActive = false := by
        cases hb : mt.Status.IsActive
        · rfl
        · exact absurd hb ha
      simp only [Manager.Stop, hl, haF, Bool.not_false, if_true]
      exact h

/-- Invariant preservation: `Manager.StopAll`. -/
theorem inv_stopAll {m : Manager} {tr : List StatusChange} (h : Inv m tr) :
    Inv (step m .stopAll).1 (tr ++ ((step m .stopAll).2).toList) := by
  simp only [step, Option.toList_none, List.append_nil]
  refine ⟨?_, ?_, ?_, ?_, ?_, ?_, ?_, ?_⟩
  · show ((m.tunnels.map fun p => (p.1, fireCancel p.2)).map Prod.fst).Nodup
    rw [List.map_map]
    exact h.keysUniq
  · intro p hp
    obtain ⟨q, hq, hpq⟩ := List.mem_map.mp hp
    rw [← hpq]
    show (fireCancel q.2).cancel = (fireCancel q.2).Status.IsActive
    rw [fireCancel_cancel, fireCancel_Status]
    exact h.cancelInv q hq
  · intro pr hpr
    obtain ⟨mtw, hlw, hgw, haw⟩ := h.fwdsLive pr hpr
    refine ⟨fireCancel mtw, ?_, ?_, ?_⟩
    · show lookupT (m.tunnels.map fun p => (p.1, fireCancel p.2)) pr.1 = _
      rw [lookupT_map, hlw]
      rfl
    · rw [fireCancel_gen]
      exact hgw
    · rw [fireCancel_Status]
      exact haw
  · intro n' s hs hsa
    obtain ⟨mtw, hlw, hsw⟩ := h.lastActive n' s hs hsa
    refine ⟨fireCancel mtw, ?_, ?_⟩
    · show lookupT (m.tunnels.map fun p => (p.1, fireCancel p.2)) n' = _
      rw [lookupT_map, hlw]
      rfl
    · rw [fireCancel_Status]
      exact hsw
  · exact h.fwdsObs
  · exact h.fwdsUniq
  · intro n' mtx hlx hcx
    have hlx' : (lookupT m.tunnels n').map fireCancel = some mtx := by
      rw [← lookupT_map]
      exact hlx
    cases hlw : lookupT m.tunnels n' with
    | none =>
      rw [hlw] at hlx'
      cases hlx'
    | some w =>
      rw [hlw] at hlx'
      have hwx : fireCancel w = mtx := Option.some.inj hlx'
      rw [← hwx, fireCancel_Status] at hcx
      exact h.connObs n' w hlw hcx
  · exact h.pathInv

/-- Invariant preservation: `Manager.Register`. -/
theorem inv_register {m : Manager} {tr : List StatusChange} (n : String)
    (h : Inv m tr) :
    Inv (step m (.register n)).1 (tr ++ ((step m (.register n)).2).toList) := by
  simp only [step, Option.toList_none, List.append_nil]
  cases hl : lookupT m.tunnels n with
  | some mt =>
    simp only [Manager.Register, hl]
    exact h
  | none =>
    simp only [Manager.Register, hl]
    have hnm : ¬ n ∈ m.tunnels.map Prod.fst := by
      intro hmem
      obtain ⟨mt, hmt⟩ := mem_fst_lookupT hmem
      rw [hl] at hmt
      cases hmt
    refine ⟨?_, ?_, ?_, ?_, ?_, ?_, ?_, ?_⟩
    · simp only [List.map_cons, List.nodup_cons]
      exact ⟨hnm, h.keysUniq⟩
    · intro p hp
      rcases List.mem_cons.mp hp with hp' | hp'
      · rw [hp']
        rfl
      · exact h.cancelInv p hp'
    · intro pr hpr
      obtain ⟨mtw, hlw, hgw, haw⟩ := h.fwdsLive pr hpr
      have hne : ¬ n = pr.1 := by
        intro hpn
        rw [← hpn, hl] at hlw
        cases hlw
      exact ⟨mtw, by simp only [lookupT, if_neg hne]; exact hlw, hgw, haw⟩
    · intro n' s hs hsa
      obtain ⟨mtw, hlw, hsw⟩ := h.lastActive n' s hs hsa
      have hne : ¬ n = n' := by
        intro hpn
        rw [← hpn, hl] at hlw
        cases hlw
      exact ⟨mtw, by simp only [lookupT, if_neg hne]; exact hlw, hsw⟩
    · exact h.fwdsObs
    · exact h.fwdsUniq
    · intro n' mtx hlx hcx
      by_cases hn : n = n'
      · simp only [lookupT, if_pos hn] at hlx
        rw [← Option.some.inj hlx] at hcx
        exact absurd (show State.disconnected = State.connecting from hcx) (by decide)
      · simp only [lookupT, if_neg hn] at hlx
        exact h.connObs n' mtx hlx hcx
    · exact h.pathInv

/-- Invariant preservation: `Manager.Unregister`. -/
theorem inv_unregister {m : Manager} {tr : List StatusChange} (n : String)
    (h : Inv m tr) :
    Inv (step m (.unregister n)).1 (tr ++ ((step m (.unregister n)).2).toList) := by
  simp only [step, Option.toList_none, List.append_nil]
  cases hl : lookupT m.tunnels n with
  | none =>
    simp only [Manager.Unregister, hl]
    exact h
  | some mt =>
    by_cases hE : mt.Ephemeral = true
    · by_cases ha : mt.Status.IsActive = true
      · simp only [Manager.Unregister, hl, hE, Bool.not_true, Bool.false_eq_true,
          if_false, ha, if_true]
        exact h
      · have haF : mt.Status.IsActive = false := by
          cases hb : mt.Status.IsActive
          · rfl
          · exact absurd hb ha
        simp only [Manager.Unregister, hl, hE, Bool.not_true, Bool.false_eq_true,
          if_false, haF]
        exact inv_tunnels_removeT h hl haF _ rfl rfl
    · have hEF : mt.Ephemeral = false := by
        cases hb : mt.Ephemeral
        · rfl
        · exact absurd hb hE
      simp only [Manager.Unregister, hl, hEF, Bool.not_false, if_true]
      exact h

/-- Invariant preservation: the delayed ephemeral-removal task. -/
theorem inv_ephemRemoval {m : Manager} {tr : List StatusChange} (n : String)
    (h : Inv m tr) :
    Inv (step m (.ephemRemoval n)).1 (tr ++ ((step m (.ephemRemoval n)).2).toList) := by
  by_cases hin : n ∈ m.pendingRemovals
  · simp only [step, if_pos hin, Option.toList_none, List.append_nil]
    cases hl : lookupT m.tunnels n with
    | none =>
      simp only [Manager.removeEphemeral, hl]
      exact inv_carry h _ rfl rfl
    | some mt =>
      by_cases ha : mt.Status.IsActive = true
      · simp only [Manager.removeEphemeral, hl, ha, if_true]
        exact inv_carry h _ rfl rfl
      · have haF : mt.Status.IsActive = false := by
          cases hb : mt.Status.IsActive
          · rfl
          · exact absurd hb ha
        simp only [Manager.removeEphemeral, hl, haF, Bool.false_eq_true, if_false]
        exact inv_tunnels_removeT h hl haF _ rfl rfl
  · simp only [step, if_neg hin]
    simpa using h

/-- Every event preserves the invariant. -/
theorem step_preserves {m : Manager} {tr : List StatusChange} (ev : Ev)
    (h : Inv m tr) : Inv (step m ev).1 (tr ++ ((step m ev).2).toList) := by
  cases ev with
  | start n => exact inv_start n h
  | fwdReturn n g e => exact inv_fwdReturn n g e h
  | promote n g => exact inv_promote n g h
  | stop n => exact inv_stop n h
  | stopAll => exact inv_stopAll h
  | register n => exact inv_register n h
  | unregister n => exact inv_unregister n h
  | ephemRemoval n => exact inv_ephemRemoval n h

/-- A run started from an invariant state ends in an invariant state, with
the trace extended by the emitted changes. -/
theorem run_preserves {m : Manager} {tr : List StatusChange} (evs : List Ev)
    (h : Inv m tr) : Inv (run m evs).1 (tr ++ (run m evs).2) := by
  induction evs generalizing m tr with
  | nil => simpa [run] using h
  | cons ev evs ih =>
    have h2 := ih (step_preserves ev h)
    simpa [run, List.append_assoc] using h2

/-- Every state reachable from an initial manager satisfies the invariant. -/
theorem run_inv (names : List String) (evs : List Ev) :
    Inv (run (initManager names) evs).1 (run (initManager names) evs).2 := by
  have h := run_preserves evs (inv_init names)
  simpa using h

/-- C1: in every reachable manager state - reachable by any interleaving
of `Start`, the readiness promotion, the forwarder-return transition,
`Stop`, `StopAll`, `Register`, `Unregister` and the ephemeral-removal task
- each managed tunnel's cancellation handle is present if and only if its
status is `connecting` or `connected`. -/
theorem C1_cancel_iff_active (names : List String) (evs : List Ev) :
    ∀ p ∈ (run (initManager names) evs).1.tunnels,
      (p.2.cancel = true ↔
        (p.2.Status = State.connecting ∨ p.2.Status = State.connected)) := by
  intro p hp
  have h := (run_inv names evs).cancelInv p hp
  constructor
  · intro hc
    rw [hc] at h
    exact isActive_iff.mp h.symm
  · intro hs
    rw [h]
    exact isActive_iff.mpr hs

/-- Witness for C1 on a concrete run: after `Start`, the tunnel is
`connecting` with the cancel handle present. -/
theorem C1_cancel_iff_active_witness :
    (("t", (⟨.connecting, "", false, true, false, 0⟩ : ManagedTunnel)) ∈
      (run (initManager ["t"]) [.start "t"]).1.tunnels) ∧
    ((⟨.connecting, "", false, true, false, 0⟩ : ManagedTunnel).cancel = true ↔
      ((⟨.connecting, "", false, true, false, 0⟩ : ManagedTunnel).Status = State.connecting ∨
        (⟨.connecting, "", false, true, false, 0⟩ : ManagedTunnel).Status = State.connected)) :=
  ⟨by decide,
    C1_cancel_iff_active ["t"] [.start "t"]
      ("t", (⟨.connecting, "", false, true, false, 0⟩ : ManagedTunnel)) (by decide)⟩

/-- The events of the C3 counterexample run: the tunnel is started, the
forwarder fails (SSH dial failure), the tunnel is started again, stopped
during the readiness window, and the forwarder returns `ErrTunnelClosed`. -/
def evsC3 : List Ev :=
  [.start "t", .fwdReturn "t" 0 (some (.fail "dial failed")), .start "t",
    .stop "t", .fwdReturn "t" 0 (some .closed)]

/-- C3 counterexample: a reachable run whose observed status sequence for
one tunnel is `connecting, error, connecting, disconnected`, which is not
a path through the claimed transition set - it uses `error→connecting`
(restart after failure) and `connecting→disconnected` (stop during the
readiness window). -/
theorem C3_counterexample_run :
    observed (initManager ["t"]) evsC3 "t" =
      [.connecting, .error, .connecting, .disconnected] ∧
    pathOk specEdge (observed (initManager ["t"]) evsC3 "t") = false := by
  decide

/-- C3 (amended): for every tunnel name, the observed status sequence is a
path through the transition set {disconnected→connecting,
error→connecting, connecting→connected, connecting→error,
connecting→disconnected, connected→error, connected→disconnected,
error→disconnected}, with no self-loops. -/
theorem C3_amended_transitions (names : List String) (evs : List Ev)
    (n : String) :
    pathOk codeEdge (observed (initManager names) evs n) = true :=
  (run_inv names evs).pathInv n

end Gurren
